import Mathlib

/-
Verification of the discrete-event queueing simulation in
`discrete_events_simulation.py`.

The engine is embedded shallowly over an arbitrary linear ordered field `K`
(the Python code computes with IEEE floats; we model float values as field
elements, `np.inf` as `⊤ : WithTop K`).  Randomness is made explicit: the
process-wide uniform source `np.random.rand()` becomes a stream `us : ℕ → K`
together with a cursor index that every draw site advances by one, and
`np.log` becomes an explicit function parameter `log : K → K` (instantiated
with `Real.log` when the real-number reading is needed).  Loops become
fuel-indexed recursions returning `none` when the fuel runs out; the uncaught
`StopIteration` that `next` on an exhausted iterator would raise is modelled
by an explicit `crash` outcome / `Except.error ()` result.
-/

namespace OptSim

variable {K : Type} [LinearOrderedField K]

/-- `Scenario.__init__` from the source: an immutable parameter bundle.
The constructor stores its four arguments and performs no validation. -/
structure Scenario (K : Type) where
  demand_duration : K
  t0 : K
  lam : K
  mu : K
deriving DecidableEq

/-- `exponential_rng(lam)`: returns `-np.log(np.random.rand()) / lam`.
The uniform source is the stream `us`; the call consumes exactly the draw at
cursor `i` and advances the cursor to `i + 1`. -/
def exponential_rng (log : K → K) (us : ℕ → K) (lam : K) (i : ℕ) : K × ℕ :=
  (-log (us i) / lam, i + 1)

/-- The `Generation` class: rate `lam` and a cumulative clock `time`. -/
structure Generation (K : Type) where
  lam : K
  time : K
deriving DecidableEq

/-- `Generation.generate`: `self.time += exponential_rng(self.lam)`. -/
def Generation.generate (log : K → K) (us : ℕ → K) (g : Generation K) (i : ℕ) :
    Generation K × ℕ :=
  let r := exponential_rng log us g.lam i
  (⟨g.lam, g.time + r.1⟩, r.2)

/-- The `Arrival` class: free-flow travel time `t0`. -/
structure Arrival (K : Type) where
  t0 : K
deriving DecidableEq

/-- `Arrival.travel`: `self.tt = self.t0 * np.random.rand()`; returns the
drawn travel time together with the advanced cursor. -/
def Arrival.travel (us : ℕ → K) (a : Arrival K) (i : ℕ) : K × ℕ :=
  (a.t0 * us i, i + 1)

/-- The `Departure` class: service rate `mu`. -/
structure Departure (K : Type) where
  mu : K
deriving DecidableEq

/-- `Departure.depart`: `self.time = exponential_rng(self.mu)`. -/
def Departure.depart (log : K → K) (us : ℕ → K) (d : Departure K) (i : ℕ) :
    K × ℕ :=
  exponential_rng log us d.mu i

/-- The arrival pre-generation loop of `simulate` (lines 102-113): repeatedly
advance the generation clock by an exponential draw, add a travel
perturbation, and append the arrival instant `ta` to the working list; stop
after appending an instant with `ta > demand_duration`.  Note that the
overshooting instant is appended before the `break`.  Fuel-indexed; `none`
means the fuel ran out before the loop broke.  Returns the working list and
the advanced rng cursor. -/
def pregenLoop (log : K → K) (us : ℕ → K) (lam t0 dd : K) :
    ℕ → K → ℕ → Option (List K × ℕ)
  | 0, _, _ => none
  | fuel + 1, gtime, i =>
    let g := Generation.generate log us ⟨lam, gtime⟩ i
    let tg := g.1.time
    let tr := Arrival.travel us ⟨t0⟩ g.2
    let ta := tg + tr.1
    if dd < ta then some ([ta], tr.2)
    else
      match pregenLoop log us lam t0 dd fuel tg tr.2 with
      | some (ts, i2) => some (ta :: ts, i2)
      | none => none

/-- The mutable state of the main event loop of `simulate`: the four output
lists, the clock `t`, the counters `NA`/`ND`, the queue length `n`, the event
list (`EL0` = next-arrival slot, `EL1` = next-departure slot, `⊤` = `np.inf`),
the remaining pre-generated arrival instants `Ts` (the iterator suffix), and
the rng cursor `i`. -/
structure LoopState (K : Type) where
  times : List K
  queues : List ℤ
  As : List K
  Ds : List K
  t : K
  NA : ℕ
  ND : ℕ
  n : ℤ
  EL0 : K
  EL1 : WithTop K
  Ts : List K
  i : ℕ
deriving DecidableEq

/-- Outcome of one iteration of the main `while True` loop: continue with a
new state, terminate (the `break`), or raise `StopIteration` (an iterator
pull on an exhausted arrival stream). -/
inductive Step (K : Type) where
  | cont (s : LoopState K)
  | halt (s : LoopState K)
  | crash
deriving DecidableEq

/-- Arrival processing (lines 119-136), given the pulled next instant `Tt`
and the remaining iterator `rest`: advance the clock to the NA-slot,
increment `n`, record the event, move `Tt` into the NA-slot, and if the
system was empty (`n == 1` after the increment) draw a fresh service time and
arm the ND-slot. -/
def phaseA (log : K → K) (us : ℕ → K) (mu : K) (Tt : K) (rest : List K)
    (s : LoopState K) : LoopState K :=
  { times := s.times ++ [s.EL0]
    queues := s.queues ++ [s.n + 1]
    As := s.As ++ [s.EL0]
    Ds := s.Ds
    t := s.EL0
    NA := s.NA + 1
    ND := s.ND
    n := s.n + 1
    EL0 := Tt
    EL1 := if s.n + 1 = 1
      then ((s.EL0 + (Departure.depart log us ⟨mu⟩ s.i).1 : K) : WithTop K)
      else s.EL1
    Ts := rest
    i := if s.n + 1 = 1 then (Departure.depart log us ⟨mu⟩ s.i).2 else s.i }

/-- Departure processing (lines 137-155), given the finite value `tv` of the
ND-slot: advance the clock to the ND-slot, decrement `n`, record the event;
if customers remain draw a fresh service time into the ND-slot, otherwise set
the ND-slot to `np.inf`. -/
def phaseB (log : K → K) (us : ℕ → K) (mu : K) (tv : K)
    (s : LoopState K) : LoopState K :=
  { times := s.times ++ [tv]
    queues := s.queues ++ [s.n - 1]
    As := s.As
    Ds := s.Ds ++ [tv]
    t := tv
    NA := s.NA
    ND := s.ND + 1
    n := s.n - 1
    EL0 := s.EL0
    EL1 := if 0 < s.n - 1
      then ((tv + (Departure.depart log us ⟨mu⟩ s.i).1 : K) : WithTop K)
      else ⊤
    Ts := s.Ts
    i := if 0 < s.n - 1 then (Departure.depart log us ⟨mu⟩ s.i).2 else s.i }

/-- One iteration of the inner drain loop of Phase C (lines 166-179): draw a
service time, set the ND-slot to `t + duration`, advance the clock to it,
decrement `n`, and record the event. -/
def drainBody (log : K → K) (us : ℕ → K) (mu : K)
    (s : LoopState K) : LoopState K :=
  let d := Departure.depart log us ⟨mu⟩ s.i
  let td := s.t + d.1
  { times := s.times ++ [td]
    queues := s.queues ++ [s.n - 1]
    As := s.As
    Ds := s.Ds ++ [td]
    t := td
    NA := s.NA
    ND := s.ND + 1
    n := s.n - 1
    EL0 := s.EL0
    EL1 := (td : WithTop K)
    Ts := s.Ts
    i := d.2 }

/-- The `while n > 0` drain loop of Phase C, fuel-indexed.  It is always
invoked with fuel `n.toNat`, which matches the exact number of iterations the
source loop performs since each iteration decrements `n` by one. -/
def drainLoop (log : K → K) (us : ℕ → K) (mu : K) :
    ℕ → LoopState K → LoopState K
  | 0, s => s
  | k + 1, s =>
    if 0 < s.n then drainLoop log us mu k (drainBody log us mu s) else s

/-- Phase C with `n > 0` (lines 157-179), given the finite value `tv` of the
ND-slot: one departure exactly as recorded in the source (clock to the
ND-slot, decrement, record — the ND-slot itself is not updated here), then
the inner drain loop until `n` reaches `0`. -/
def phaseC (log : K → K) (us : ℕ → K) (mu : K) (tv : K)
    (s : LoopState K) : LoopState K :=
  let s1 : LoopState K :=
    { s with
      times := s.times ++ [tv]
      queues := s.queues ++ [s.n - 1]
      Ds := s.Ds ++ [tv]
      t := tv
      ND := s.ND + 1
      n := s.n - 1 }
  drainLoop log us mu s1.n.toNat s1

/-- One iteration of the main `while True` loop (lines 118-181).  The three
`elif` conditions are translated verbatim; `np.inf` comparisons are the
`WithTop` order.  In the two places where the source reads the float
`EL[1]` as the new clock value, a `⊤` slot would mean reading `np.inf`;
both places are guarded (by the branch condition, respectively by the loop
invariant `n > 0 → EL1 ≠ ⊤` proved below), and the embedding marks them
`crash` as provably unreachable.  When none of the three conditions holds
the source body does nothing and the loop spins; this is `cont s` (also
provably unreachable: the conditions are exhaustive). -/
def mainStep (log : K → K) (us : ℕ → K) (mu dd : K) (s : LoopState K) :
    Step K :=
  if ((s.EL0 : WithTop K) ≤ s.EL1) ∧ (s.EL0 ≤ dd) then
    match s.Ts with
    | [] => Step.crash
    | Tt :: rest => Step.cont (phaseA log us mu Tt rest s)
  else if (s.EL1 < (s.EL0 : WithTop K)) ∧ (s.EL1 < (dd : WithTop K)) then
    WithTop.recTopCoe Step.crash
      (fun tv => Step.cont (phaseB log us mu tv s)) s.EL1
  else if (dd < s.EL0) ∨ ((dd : WithTop K) < s.EL1) then
    if 0 < s.n then
      WithTop.recTopCoe Step.crash
        (fun tv => Step.cont (phaseC log us mu tv s)) s.EL1
    else Step.halt s
  else Step.cont s

/-- The four sequences returned by `simulate`. -/
structure SimResult (K : Type) where
  times : List K
  queues : List ℤ
  As : List K
  Ds : List K
deriving DecidableEq

/-- The main `while True` loop, fuel-indexed.  `none` means the fuel ran out;
`some (Except.error ())` is an escaped `StopIteration`; `some (Except.ok r)`
is normal termination via the `break`. -/
def mainLoop (log : K → K) (us : ℕ → K) (mu dd : K) :
    ℕ → LoopState K → Option (Except Unit (SimResult K))
  | 0, _ => none
  | fuel + 1, s =>
    match mainStep log us mu dd s with
    | Step.cont s2 => mainLoop log us mu dd fuel s2
    | Step.halt s2 => some (Except.ok ⟨s2.times, s2.queues, s2.As, s2.Ds⟩)
    | Step.crash => some (Except.error ())

/-- The state of `simulate` just before entering the main loop: `times=[0]`,
`queues=[0]`, `t=0`, `n=0`, `EL = [T0, np.inf]` where `T0` is the first
element pulled from the sorted arrival list, and `rest` its remaining
elements. -/
def initState (T0 : K) (rest : List K) (i : ℕ) : LoopState K :=
  { times := [0], queues := [0], As := [], Ds := [], t := 0, NA := 0, ND := 0,
    n := 0, EL0 := T0, EL1 := ⊤, Ts := rest, i := i }

/-- `simulate(scenario)`: pre-generate the arrival instants, sort them,
pull the first one into the NA-slot (`next` on an empty list would raise,
hence the `error` case) and run the main loop.  One fuel parameter bounds
both loops. -/
def simulate (log : K → K) (us : ℕ → K) (fuel : ℕ) (scenario : Scenario K) :
    Option (Except Unit (SimResult K)) :=
  let dd := scenario.demand_duration
  match pregenLoop log us scenario.lam scenario.t0 dd fuel 0 0 with
  | none => none
  | some (ts, i) =>
    match List.insertionSort (· ≤ ·) ts with
    | [] => some (Except.error ())
    | T0 :: rest => mainLoop log us scenario.mu dd fuel (initState T0 rest i)

/-- `SimTerminates log us scenario` states that some fuel suffices for
`simulate` to complete normally. -/
def SimTerminates (log : K → K) (us : ℕ → K) (scenario : Scenario K) : Prop :=
  ∃ fuel r, simulate log us fuel scenario = some (Except.ok r)

/-- Projection of a step outcome onto the queue length, for stating which
branch the engine selects. -/
def Step.queueLen : Step K → Option ℤ
  | Step.cont s => some s.n
  | Step.halt s => some s.n
  | Step.crash => none

/-- Projection of a step outcome onto the recorded arrival instants. -/
def Step.arrivalsRec : Step K → Option (List K)
  | Step.cont s => some s.As
  | Step.halt s => some s.As
  | Step.crash => none

/-- Projection of a step outcome onto the recorded departure instants. -/
def Step.departuresRec : Step K → Option (List K)
  | Step.cont s => some s.Ds
  | Step.halt s => some s.Ds
  | Step.crash => none

/-- Iterated `mainStep`, for exhibiting concrete intermediate loop states. -/
def stepN (log : K → K) (us : ℕ → K) (mu dd : K) :
    ℕ → Step K → Step K
  | 0, st => st
  | k + 1, st =>
    match st with
    | Step.cont s => stepN log us mu dd k (mainStep log us mu dd s)
    | st2 => st2

/-! ### The loop invariant -/

/-- The inductive invariant of the main event loop, for demand duration
`dd`.  It packages queue-length accounting, the shape and ordering facts
about the four output lists, the relation between the clock and the two
event-list slots, and the sortedness of the remaining arrival stream
together with the presence of the retained overshooting instant. -/
structure Inv (dd : K) (s : LoopState K) : Prop where
  n_nonneg : 0 ≤ s.n
  n_count : s.n = (s.As.length : ℤ) - (s.Ds.length : ℤ)
  idle : s.n = 0 → s.EL1 = ⊤ ∨ (dd < s.EL0 ∧ ¬ s.EL1 < (dd : WithTop K))
  busy : 0 < s.n → s.EL1 ≠ ⊤
  len_eq : s.times.length = s.queues.length
  times_shape : ∃ l, s.times = 0 :: l
  queues_shape : ∃ l, s.queues = 0 :: l
  queues_nonneg : ∀ q ∈ s.queues, 0 ≤ q
  queues_last : s.queues.getLast? = some s.n
  times_sorted : s.times.Sorted (· ≤ ·)
  times_bound : ∀ x ∈ s.times, x ≤ s.t
  t_le_EL1 : (s.t : WithTop K) ≤ s.EL1
  t_le_EL0 : s.t ≤ s.EL0 ∨ dd < s.EL0
  ts_sorted : (s.EL0 :: s.Ts).Sorted (· ≤ ·)
  ts_over : ∃ x ∈ s.EL0 :: s.Ts, dd < x

/-! ### Concrete instantiations used to exercise the engine

`qLog` is a stub for `np.log` under which `-log u = u`, so every
exponential draw has positive value exactly when the uniform draw does;
`uC3` is a genuine real-valued uniform stream, constant at
`e^(-1/2) ∈ (0,1)`, used with the real `np.log` itself. -/

def qLog : ℚ → ℚ := fun u => -u

def qUs : ℕ → ℚ := fun j => [1/2, 1/2, 3/4, 1/2, 3/4].getD j (1/2)

def cUs1 : ℕ → ℚ := fun _ => 1/2

def qScen : Scenario ℚ := ⟨1, 0, 1, 1⟩

noncomputable def uC3 : ℕ → ℝ := fun _ => Real.exp (-(1/2))

def qRes : SimResult ℚ := ⟨[0, 1/2, 5/4], [0, 1, 0], [1/2], [5/4]⟩

/-- The loop state reached after the Phase C drain in the `qScen` run:
`n = 0` while the ND-slot still holds the final departure instant `5/4`. -/
def w2 : LoopState ℚ :=
  ⟨[0, 1/2, 5/4], [0, 1, 0], [1/2], [5/4], 5/4, 1, 1, 0, 5/4,
    ((5/4 : ℚ) : WithTop ℚ), [], 5⟩

/-- A loop state with a tied event list: NA-slot = ND-slot = 1/2. -/
def sTie : LoopState ℚ :=
  ⟨[0], [0], [], [], 0, 0, 0, 0, 1/2, ((1/2 : ℚ) : WithTop ℚ), [3/4], 0⟩

def uZero : ℕ → ℝ := fun _ => 0

def uZeroQ : ℕ → ℚ := fun _ => 0

/-- A uniform stream whose draws are all strictly positive yet whose
exponential increments form a geometric series summing below the horizon. -/
def cUs9 : ℕ → ℚ := fun j => if j % 2 = 0 then (1/2 : ℚ) ^ (j / 2 + 2) else 1/2

def c9Scen : Scenario ℚ := ⟨1, 0, 1, 1⟩

/-! ### Branch characterization of the main loop body -/

theorem mainStep_arrival (log : K → K) (us : ℕ → K) (mu dd : K)
    (s : LoopState K) (Tt : K) (rest : List K)
    (hc : ((s.EL0 : WithTop K) ≤ s.EL1) ∧ (s.EL0 ≤ dd))
    (hts : s.Ts = Tt :: rest) :
    mainStep log us mu dd s = Step.cont (phaseA log us mu Tt rest s) := by
  unfold mainStep
  rw [if_pos hc]
  simp only [hts]

theorem mainStep_departure (log : K → K) (us : ℕ → K) (mu dd : K)
    (s : LoopState K) (tv : K)
    (hc1 : ¬ (((s.EL0 : WithTop K) ≤ s.EL1) ∧ (s.EL0 ≤ dd)))
    (hc2 : (s.EL1 < (s.EL0 : WithTop K)) ∧ (s.EL1 < (dd : WithTop K)))
    (htv : s.EL1 = (tv : WithTop K)) :
    mainStep log us mu dd s = Step.cont (phaseB log us mu tv s) := by
  unfold mainStep
  rw [if_neg hc1, if_pos hc2, htv, WithTop.recTopCoe_coe]

theorem mainStep_drain (log : K → K) (us : ℕ → K) (mu dd : K)
    (s : LoopState K) (tv : K)
    (hc1 : ¬ (((s.EL0 : WithTop K) ≤ s.EL1) ∧ (s.EL0 ≤ dd)))
    (hc2 : ¬ ((s.EL1 < (s.EL0 : WithTop K)) ∧ (s.EL1 < (dd : WithTop K))))
    (hc3 : (dd < s.EL0) ∨ ((dd : WithTop K) < s.EL1))
    (hn : 0 < s.n) (htv : s.EL1 = (tv : WithTop K)) :
    mainStep log us mu dd s = Step.cont (phaseC log us mu tv s) := by
  unfold mainStep
  rw [if_neg hc1, if_neg hc2, if_pos hc3, if_pos hn, htv, WithTop.recTopCoe_coe]

theorem mainStep_halt (log : K → K) (us : ℕ → K) (mu dd : K)
    (s : LoopState K)
    (hc1 : ¬ (((s.EL0 : WithTop K) ≤ s.EL1) ∧ (s.EL0 ≤ dd)))
    (hc2 : ¬ ((s.EL1 < (s.EL0 : WithTop K)) ∧ (s.EL1 < (dd : WithTop K))))
    (hc3 : (dd < s.EL0) ∨ ((dd : WithTop K) < s.EL1))
    (hn : ¬ 0 < s.n) :
    mainStep log us mu dd s = Step.halt s := by
  unfold mainStep
  rw [if_neg hc1, if_neg hc2, if_pos hc3, if_neg hn]

/-- The three `elif` conditions of the main loop are exhaustive: when the
first two fail, the third holds.  (Hence the final spin branch of the
embedding is unreachable.) -/
theorem mainStep_conds_exhaustive (dd : K) (EL0 : K) (EL1 : WithTop K)
    (h1 : ¬ (((EL0 : WithTop K) ≤ EL1) ∧ (EL0 ≤ dd)))
    (h2 : ¬ ((EL1 < (EL0 : WithTop K)) ∧ (EL1 < (dd : WithTop K)))) :
    (dd < EL0) ∨ ((dd : WithTop K) < EL1) := by
  by_contra h
  push_neg at h
  obtain ⟨hd0, hd1⟩ := h
  induction EL1 using WithTop.recTopCoe with
  | top => exact absurd hd1 (by simp)
  | coe tv =>
    rw [WithTop.coe_le_coe] at hd1
    rcases not_and_or.mp h1 with h1a | h1b
    · rw [WithTop.coe_le_coe] at h1a
      rcases not_and_or.mp h2 with h2a | h2b
      · rw [WithTop.coe_lt_coe] at h2a
        exact absurd (lt_of_not_le h1a) h2a
      · rw [WithTop.coe_lt_coe] at h2b
        exact absurd (lt_of_lt_of_le (lt_of_not_le h1a) hd0) h2b
    · exact h1b hd0

/-- On entry to Phase C with a finite ND-slot, the NA-slot already exceeds
the horizon and the ND-slot value is at least the horizon. -/
theorem phaseC_entry (dd : K) (EL0 : K) (EL1 : WithTop K) (tv : K)
    (h1 : ¬ (((EL0 : WithTop K) ≤ EL1) ∧ (EL0 ≤ dd)))
    (h2 : ¬ ((EL1 < (EL0 : WithTop K)) ∧ (EL1 < (dd : WithTop K))))
    (htv : EL1 = (tv : WithTop K)) :
    dd < EL0 ∧ dd ≤ tv := by
  subst htv
  simp only [WithTop.coe_le_coe, WithTop.coe_lt_coe] at h1 h2
  constructor
  · by_contra hlt
    push_neg at hlt
    rcases not_and_or.mp h1 with h1a | h1b
    · have htvlt : tv < EL0 := lt_of_not_le h1a
      rcases not_and_or.mp h2 with h2a | h2b
      · exact h2a htvlt
      · exact h2b (lt_of_lt_of_le htvlt hlt)
    · exact h1b hlt
  · by_cases hEt : EL0 ≤ tv
    · rcases not_and_or.mp h1 with h1a | h1b
      · exact absurd hEt h1a
      · exact le_trans (le_of_not_le h1b) hEt
    · rcases not_and_or.mp h2 with h2a | h2b
      · exact absurd (lt_of_not_le hEt) h2a
      · exact le_of_not_lt h2b

/-! ### The pre-generation loop -/

/-- Unfolding of one pre-generation iteration with the generator methods
reduced to their arithmetic content. -/
theorem pregenLoop_succ (log : K → K) (us : ℕ → K) (lam t0 dd : K)
    (f : ℕ) (gtime : K) (i : ℕ) :
    pregenLoop log us lam t0 dd (f + 1) gtime i =
      if dd < gtime + -log (us i) / lam + t0 * us (i + 1) then
        some ([gtime + -log (us i) / lam + t0 * us (i + 1)], i + 1 + 1)
      else
        match pregenLoop log us lam t0 dd f (gtime + -log (us i) / lam)
            (i + 1 + 1) with
        | some (ts, i2) =>
          some ((gtime + -log (us i) / lam + t0 * us (i + 1)) :: ts, i2)
        | none => none := by
  rw [pregenLoop]
  rfl

/-- Shape of a completed pre-generation run: the working list consists of
instants at or below the horizon followed by exactly one final overshooting
instant (the one appended just before the `break`). -/
theorem pregenLoop_shape (log : K → K) (us : ℕ → K) (lam t0 dd : K) :
    ∀ (fuel : ℕ) (gtime : K) (i : ℕ) (ts : List K) (j : ℕ),
      pregenLoop log us lam t0 dd fuel gtime i = some (ts, j) →
      ∃ L a, ts = L ++ [a] ∧ (∀ x ∈ L, x ≤ dd) ∧ dd < a := by
  intro fuel
  induction fuel with
  | zero => intro gtime i ts j h; simp [pregenLoop] at h
  | succ f ih =>
    intro gtime i ts j h
    rw [pregenLoop_succ] at h
    by_cases hta :
        dd < gtime + -log (us i) / lam + t0 * us (i + 1)
    · rw [if_pos hta] at h
      obtain ⟨h1, h2⟩ := Prod.mk.injEq .. ▸ (Option.some.injEq _ _ ▸ h)
      exact ⟨[], _, h1.symm ▸ rfl, by simp, hta⟩
    · rw [if_neg hta] at h
      rcases hrec : pregenLoop log us lam t0 dd f
          (gtime + -log (us i) / lam) (i + 1 + 1) with _ | ⟨ts2, i2⟩
      · rw [hrec] at h; exact absurd h (by simp)
      · rw [hrec] at h
        obtain ⟨h1, h2⟩ := Prod.mk.injEq .. ▸ (Option.some.injEq _ _ ▸ h)
        obtain ⟨L, a, hL1, hL2, hL3⟩ := ih _ _ _ _ hrec
        refine ⟨(gtime + -log (us i) / lam + t0 * us (i + 1)) :: L, a,
          ?_, ?_, hL3⟩
        · rw [← h1, hL1]; rfl
        · intro x hx
          rcases List.mem_cons.mp hx with hx | hx
          · exact hx ▸ le_of_not_lt hta
          · exact hL2 x hx

/-- Under the draw contract, every pre-generated arrival instant is at least
the starting value of the cumulative generation clock. -/
theorem pregenLoop_lb (log : K → K) (us : ℕ → K) (lam t0 dd : K)
    (Hlam : 0 < lam) (Ht0 : 0 ≤ t0)
    (Hdr : ∀ j, 0 ≤ us j ∧ 0 ≤ -log (us j)) :
    ∀ (fuel : ℕ) (gtime : K) (i : ℕ) (ts : List K) (j : ℕ),
      pregenLoop log us lam t0 dd fuel gtime i = some (ts, j) →
      ∀ x ∈ ts, gtime ≤ x := by
  intro fuel
  induction fuel with
  | zero => intro gtime i ts j h; simp [pregenLoop] at h
  | succ f ih =>
    intro gtime i ts j h
    have hinc : 0 ≤ -log (us i) / lam := div_nonneg (Hdr i).2 Hlam.le
    have htt : 0 ≤ t0 * us (i + 1) := mul_nonneg Ht0 (Hdr (i + 1)).1
    have hta : gtime ≤ gtime + -log (us i) / lam + t0 * us (i + 1) := by
      linarith
    rw [pregenLoop_succ] at h
    by_cases hb : dd < gtime + -log (us i) / lam + t0 * us (i + 1)
    · rw [if_pos hb] at h
      obtain ⟨h1, h2⟩ := Prod.mk.injEq .. ▸ (Option.some.injEq _ _ ▸ h)
      intro x hx
      rw [← h1] at hx
      simp only [List.mem_singleton] at hx
      exact hx ▸ hta
    · rw [if_neg hb] at h
      rcases hrec : pregenLoop log us lam t0 dd f
          (gtime + -log (us i) / lam) (i + 1 + 1) with _ | ⟨ts2, i2⟩
      · rw [hrec] at h; exact absurd h (by simp)
      · rw [hrec] at h
        obtain ⟨h1, h2⟩ := Prod.mk.injEq .. ▸ (Option.some.injEq _ _ ▸ h)
        intro x hx
        rw [← h1] at hx
        rcases List.mem_cons.mp hx with hx | hx
        · exact hx ▸ hta
        · exact le_trans (by linarith) (ih _ _ _ _ hrec x hx)

/-- More fuel never changes a completed pre-generation run. -/
theorem pregenLoop_mono (log : K → K) (us : ℕ → K) (lam t0 dd : K) :
    ∀ (fuel fuel2 : ℕ) (gtime : K) (i : ℕ) (r : List K × ℕ),
      pregenLoop log us lam t0 dd fuel gtime i = some r → fuel ≤ fuel2 →
      pregenLoop log us lam t0 dd fuel2 gtime i = some r := by
  intro fuel
  induction fuel with
  | zero => intro fuel2 gtime i r h; simp [pregenLoop] at h
  | succ f ih =>
    intro fuel2 gtime i r h hle
    obtain ⟨f2, rfl⟩ : ∃ f2, fuel2 = f2 + 1 :=
      ⟨fuel2 - 1, by omega⟩
    rw [pregenLoop_succ] at h ⊢
    by_cases hb : dd < gtime + -log (us i) / lam + t0 * us (i + 1)
    · rw [if_pos hb] at h ⊢; exact h
    · rw [if_neg hb] at h ⊢
      rcases hrec : pregenLoop log us lam t0 dd f
          (gtime + -log (us i) / lam) (i + 1 + 1) with _ | ⟨ts2, i2⟩
      · rw [hrec] at h; exact absurd h (by simp)
      · rw [hrec] at h
        rw [ih f2 _ _ _ hrec (by omega)]
        exact h

theorem sorted_append_one (l : List K) (x : K) (hs : l.Sorted (· ≤ ·))
    (hb : ∀ y ∈ l, y ≤ x) : (l ++ [x]).Sorted (· ≤ ·) := by
  refine List.pairwise_append.mpr ⟨hs, List.pairwise_singleton _ _, ?_⟩
  intro a ha b hb2
  rw [List.mem_singleton] at hb2
  exact hb2 ▸ hb a ha

theorem depart_nonneg (log : K → K) (us : ℕ → K) (mu : K) (Hmu : 0 < mu)
    (Hdr : ∀ j, 0 ≤ us j ∧ 0 ≤ -log (us j)) (i : ℕ) :
    0 ≤ (Departure.depart log us ⟨mu⟩ i).1 :=
  div_nonneg (Hdr i).2 Hmu.le

/-- When the departure branch condition holds, the system is non-empty. -/
theorem n_pos_of_departure (dd : K) (s : LoopState K) (hI : Inv dd s)
    (hc2 : (s.EL1 < (s.EL0 : WithTop K)) ∧ (s.EL1 < (dd : WithTop K))) :
    1 ≤ s.n := by
  rcases lt_or_eq_of_le hI.n_nonneg with h | h
  · omega
  · exfalso
    rcases hI.idle h.symm with h2 | ⟨_, h3⟩
    · rw [h2] at hc2
      exact not_top_lt hc2.2
    · exact h3 hc2.2

/-- Arrival processing preserves the invariant. -/
theorem phaseA_inv (log : K → K) (us : ℕ → K) (mu dd : K)
    (Hmu : 0 < mu) (Hdr : ∀ j, 0 ≤ us j ∧ 0 ≤ -log (us j))
    (s : LoopState K) (Tt : K) (rest : List K) (hI : Inv dd s)
    (hc : ((s.EL0 : WithTop K) ≤ s.EL1) ∧ (s.EL0 ≤ dd))
    (hts : s.Ts = Tt :: rest) :
    Inv dd (phaseA log us mu Tt rest s) := by
  have hn0 := hI.n_nonneg
  have htE0 : s.t ≤ s.EL0 := hI.t_le_EL0.resolve_right (not_lt.mpr hc.2)
  have hsort := hI.ts_sorted
  rw [hts] at hsort
  have hE0Tt : s.EL0 ≤ Tt := (List.pairwise_cons.mp hsort).1 Tt (by simp)
  obtain ⟨tl, htl⟩ := hI.times_shape
  obtain ⟨ql, hql⟩ := hI.queues_shape
  refine ⟨?_, ?_, ?_, ?_, ?_, ?_, ?_, ?_, ?_, ?_, ?_, ?_, ?_, ?_, ?_⟩
  · show 0 ≤ s.n + 1
    omega
  · show s.n + 1 = ((s.As ++ [s.EL0]).length : ℤ) - (s.Ds.length : ℤ)
    have hcnt := hI.n_count
    simp only [List.length_append, List.length_singleton]
    push_cast
    omega
  · intro h
    exact absurd h (by show s.n + 1 ≠ 0; omega)
  · intro _
    show (if s.n + 1 = 1 then _ else s.EL1) ≠ ⊤
    by_cases h1 : s.n + 1 = 1
    · rw [if_pos h1]
      exact WithTop.coe_ne_top
    · rw [if_neg h1]
      exact hI.busy (by omega)
  · show (s.times ++ [s.EL0]).length = (s.queues ++ [s.n + 1]).length
    simp [hI.len_eq]
  · exact ⟨tl ++ [s.EL0], by show s.times ++ [s.EL0] = _; rw [htl]; rfl⟩
  · exact ⟨ql ++ [s.n + 1], by show s.queues ++ [s.n + 1] = _; rw [hql]; rfl⟩
  · intro q hq
    rcases List.mem_append.mp hq with h | h
    · exact hI.queues_nonneg q h
    · rw [List.mem_singleton] at h
      omega
  · show (s.queues ++ [s.n + 1]).getLast? = some (s.n + 1)
    exact List.getLast?_concat _
  · exact sorted_append_one _ _ hI.times_sorted
      (fun y hy => le_trans (hI.times_bound y hy) htE0)
  · intro x hx
    rcases List.mem_append.mp hx with h | h
    · exact le_trans (hI.times_bound x h) htE0
    · rw [List.mem_singleton] at h
      exact h.le
  · show ((s.EL0 : K) : WithTop K) ≤ (if s.n + 1 = 1 then _ else s.EL1)
    by_cases h1 : s.n + 1 = 1
    · rw [if_pos h1]
      exact WithTop.coe_le_coe.mpr
        (le_add_of_nonneg_right (depart_nonneg log us mu Hmu Hdr s.i))
    · rw [if_neg h1]
      exact hc.1
  · exact Or.inl hE0Tt
  · exact (List.pairwise_cons.mp hsort).2
  · show ∃ x ∈ Tt :: rest, dd < x
    obtain ⟨x, hx, hdx⟩ := hI.ts_over
    rcases List.mem_cons.mp hx with h | h
    · exact absurd (h ▸ hdx) (not_lt.mpr hc.2)
    · rw [hts] at h
      exact ⟨x, h, hdx⟩

/-- Departure processing preserves the invariant. -/
theorem phaseB_inv (log : K → K) (us : ℕ → K) (mu dd : K)
    (Hmu : 0 < mu) (Hdr : ∀ j, 0 ≤ us j ∧ 0 ≤ -log (us j))
    (s : LoopState K) (tv : K) (hI : Inv dd s)
    (hc2 : (s.EL1 < (s.EL0 : WithTop K)) ∧ (s.EL1 < (dd : WithTop K)))
    (htv : s.EL1 = (tv : WithTop K)) :
    Inv dd (phaseB log us mu tv s) := by
  have hn1 : 1 ≤ s.n := n_pos_of_departure dd s hI hc2
  have httv : s.t ≤ tv := by
    have h := hI.t_le_EL1
    rw [htv] at h
    exact WithTop.coe_le_coe.mp h
  have htvE0 : tv < s.EL0 := by
    have h := hc2.1
    rw [htv] at h
    exact WithTop.coe_lt_coe.mp h
  obtain ⟨tl, htl⟩ := hI.times_shape
  obtain ⟨ql, hql⟩ := hI.queues_shape
  refine ⟨?_, ?_, ?_, ?_, ?_, ?_, ?_, ?_, ?_, ?_, ?_, ?_, ?_, ?_, ?_⟩
  · show 0 ≤ s.n - 1
    omega
  · show s.n - 1 = (s.As.length : ℤ) - ((s.Ds ++ [tv]).length : ℤ)
    have hcnt := hI.n_count
    simp only [List.length_append, List.length_singleton]
    push_cast
    omega
  · intro h
    have h2 : s.n - 1 = 0 := h
    have h0 : ¬ 0 < s.n - 1 := by omega
    show (if 0 < s.n - 1 then _ else ⊤) = ⊤ ∨ _
    rw [if_neg h0]
    exact Or.inl rfl
  · intro h
    have h2 : 0 < s.n - 1 := h
    show (if 0 < s.n - 1 then _ else ⊤) ≠ ⊤
    rw [if_pos h2]
    exact WithTop.coe_ne_top
  · show (s.times ++ [tv]).length = (s.queues ++ [s.n - 1]).length
    simp [hI.len_eq]
  · exact ⟨tl ++ [tv], by show s.times ++ [tv] = _; rw [htl]; rfl⟩
  · exact ⟨ql ++ [s.n - 1], by show s.queues ++ [s.n - 1] = _; rw [hql]; rfl⟩
  · intro q hq
    rcases List.mem_append.mp hq with h | h
    · exact hI.queues_nonneg q h
    · rw [List.mem_singleton] at h
      omega
  · show (s.queues ++ [s.n - 1]).getLast? = some (s.n - 1)
    exact List.getLast?_concat _
  · exact sorted_append_one _ _ hI.times_sorted
      (fun y hy => le_trans (hI.times_bound y hy) httv)
  · intro x hx
    rcases List.mem_append.mp hx with h | h
    · exact le_trans (hI.times_bound x h) httv
    · rw [List.mem_singleton] at h
      exact h.le
  · show ((tv : K) : WithTop K) ≤ (if 0 < s.n - 1 then _ else ⊤)
    by_cases h1 : 0 < s.n - 1
    · rw [if_pos h1]
      exact WithTop.coe_le_coe.mpr
        (le_add_of_nonneg_right (depart_nonneg log us mu Hmu Hdr s.i))
    · rw [if_neg h1]
      exact le_top
  · exact Or.inl htvE0.le
  · exact hI.ts_sorted
  · exact hI.ts_over

/-- The drain loop run with fuel `n.toNat` empties the system and touches
neither the remaining arrival stream nor the NA-slot. -/
theorem drainLoop_n (log : K → K) (us : ℕ → K) (mu : K) :
    ∀ (k : ℕ) (s : LoopState K), s.n = (k : ℤ) →
      (drainLoop log us mu k s).n = 0 ∧
        (drainLoop log us mu k s).Ts = s.Ts ∧
        (drainLoop log us mu k s).EL0 = s.EL0 := by
  intro k
  induction k with
  | zero =>
    intro s hk
    rw [drainLoop]
    exact ⟨hk, rfl, rfl⟩
  | succ k ih =>
    intro s hk
    have hpos : 0 < s.n := by omega
    rw [drainLoop, if_pos hpos]
    have hbody : (drainBody log us mu s).n = (k : ℤ) := by
      show s.n - 1 = (k : ℤ)
      omega
    exact ih (drainBody log us mu s) hbody

/-- The drain loop preserves the invariant when started from a state whose
clock and finite ND-slot agree and already lie at or past the horizon. -/
theorem drainLoop_go (log : K → K) (us : ℕ → K) (mu dd : K)
    (Hmu : 0 < mu) (Hdr : ∀ j, 0 ≤ us j ∧ 0 ≤ -log (us j)) :
    ∀ (k : ℕ) (s : LoopState K), s.n = (k : ℤ) → Inv dd s →
      dd < s.EL0 → dd ≤ s.t → s.EL1 = (s.t : WithTop K) →
      Inv dd (drainLoop log us mu k s) := by
  intro k
  induction k with
  | zero =>
    intro s _ hI _ _ _
    rw [drainLoop]
    exact hI
  | succ k ih =>
    intro s hk hI hE0 ht hEL1
    have hpos : 0 < s.n := by omega
    rw [drainLoop, if_pos hpos]
    have hd : 0 ≤ (Departure.depart log us ⟨mu⟩ s.i).1 :=
      depart_nonneg log us mu Hmu Hdr s.i
    have htd : s.t ≤ s.t + (Departure.depart log us ⟨mu⟩ s.i).1 := by linarith
    obtain ⟨tl, htl⟩ := hI.times_shape
    obtain ⟨ql, hql⟩ := hI.queues_shape
    have hIb : Inv dd (drainBody log us mu s) := by
      refine ⟨?_, ?_, ?_, ?_, ?_, ?_, ?_, ?_, ?_, ?_, ?_, ?_, ?_, ?_, ?_⟩
      · show 0 ≤ s.n - 1
        omega
      · show s.n - 1 = (s.As.length : ℤ) -
          ((s.Ds ++ [s.t + (Departure.depart log us ⟨mu⟩ s.i).1]).length : ℤ)
        have hcnt := hI.n_count
        simp only [List.length_append, List.length_singleton]
        push_cast
        omega
      · intro _
        refine Or.inr ⟨hE0, ?_⟩
        show ¬ ((s.t + (Departure.depart log us ⟨mu⟩ s.i).1 : K) : WithTop K) <
          (dd : WithTop K)
        rw [WithTop.coe_lt_coe]
        push_neg
        linarith
      · intro _
        exact WithTop.coe_ne_top
      · show (s.times ++ [_]).length = (s.queues ++ [s.n - 1]).length
        simp [hI.len_eq]
      · exact ⟨tl ++ [s.t + (Departure.depart log us ⟨mu⟩ s.i).1],
          by show s.times ++ _ = _; rw [htl]; rfl⟩
      · exact ⟨ql ++ [s.n - 1],
          by show s.queues ++ _ = _; rw [hql]; rfl⟩
      · intro q hq
        rcases List.mem_append.mp hq with h | h
        · exact hI.queues_nonneg q h
        · rw [List.mem_singleton] at h
          omega
      · show (s.queues ++ [s.n - 1]).getLast? = some (s.n - 1)
        exact List.getLast?_concat _
      · exact sorted_append_one _ _ hI.times_sorted
          (fun y hy => le_trans (hI.times_bound y hy) htd)
      · intro x hx
        rcases List.mem_append.mp hx with h | h
        · exact le_trans (hI.times_bound x h) htd
        · rw [List.mem_singleton] at h
          exact h.le
      · exact le_refl _
      · exact Or.inr hE0
      · exact hI.ts_sorted
      · exact hI.ts_over
    exact ih (drainBody log us mu s) (by show s.n - 1 = (k : ℤ); omega) hIb
      hE0 (by show dd ≤ s.t + _; linarith) rfl

/-- Phase C preserves the invariant. -/
theorem phaseC_inv (log : K → K) (us : ℕ → K) (mu dd : K)
    (Hmu : 0 < mu) (Hdr : ∀ j, 0 ≤ us j ∧ 0 ≤ -log (us j))
    (s : LoopState K) (tv : K) (hI : Inv dd s)
    (hc1 : ¬ (((s.EL0 : WithTop K) ≤ s.EL1) ∧ (s.EL0 ≤ dd)))
    (hc2 : ¬ ((s.EL1 < (s.EL0 : WithTop K)) ∧ (s.EL1 < (dd : WithTop K))))
    (hn : 0 < s.n) (htv : s.EL1 = (tv : WithTop K)) :
    Inv dd (phaseC log us mu tv s) := by
  obtain ⟨hE0, htvdd⟩ := phaseC_entry dd s.EL0 s.EL1 tv hc1 hc2 htv
  have httv : s.t ≤ tv := by
    have h := hI.t_le_EL1
    rw [htv] at h
    exact WithTop.coe_le_coe.mp h
  obtain ⟨tl, htl⟩ := hI.times_shape
  obtain ⟨ql, hql⟩ := hI.queues_shape
  have hn1 := hI.n_nonneg
  refine drainLoop_go log us mu dd Hmu Hdr (s.n - 1).toNat _
    (Int.toNat_of_nonneg (show (0:ℤ) ≤ s.n - 1 by omega)).symm ?_ hE0 htvdd htv
  refine ⟨?_, ?_, ?_, ?_, ?_, ?_, ?_, ?_, ?_, ?_, ?_, ?_, ?_, ?_, ?_⟩
  · show 0 ≤ s.n - 1
    omega
  · show s.n - 1 = (s.As.length : ℤ) - ((s.Ds ++ [tv]).length : ℤ)
    have hcnt := hI.n_count
    simp only [List.length_append, List.length_singleton]
    push_cast
    omega
  · intro _
    refine Or.inr ⟨hE0, ?_⟩
    show ¬ s.EL1 < (dd : WithTop K)
    rw [htv, WithTop.coe_lt_coe]
    exact not_lt.mpr htvdd
  · intro _
    show s.EL1 ≠ ⊤
    rw [htv]
    exact WithTop.coe_ne_top
  · show (s.times ++ [tv]).length = (s.queues ++ [s.n - 1]).length
    simp [hI.len_eq]
  · exact ⟨tl ++ [tv], by show s.times ++ [tv] = _; rw [htl]; rfl⟩
  · exact ⟨ql ++ [s.n - 1], by show s.queues ++ _ = _; rw [hql]; rfl⟩
  · intro q hq
    rcases List.mem_append.mp hq with h | h
    · exact hI.queues_nonneg q h
    · rw [List.mem_singleton] at h
      omega
  · show (s.queues ++ [s.n - 1]).getLast? = some (s.n - 1)
    exact List.getLast?_concat _
  · exact sorted_append_one _ _ hI.times_sorted
      (fun y hy => le_trans (hI.times_bound y hy) httv)
  · intro x hx
    rcases List.mem_append.mp hx with h | h
    · exact le_trans (hI.times_bound x h) httv
    · rw [List.mem_singleton] at h
      exact h.le
  · show ((tv : K) : WithTop K) ≤ s.EL1
    rw [htv]
  · exact Or.inr hE0
  · exact hI.ts_sorted
  · exact hI.ts_over

/-- One step of the main loop from an invariant state: a continuation state
again satisfies the invariant, a halt state satisfies it with `n = 0`, and
the step never raises `StopIteration`. -/
theorem mainStep_inv (log : K → K) (us : ℕ → K) (mu dd : K)
    (Hmu : 0 < mu) (Hdr : ∀ j, 0 ≤ us j ∧ 0 ≤ -log (us j))
    (s : LoopState K) (hI : Inv dd s) :
    (∀ s2, mainStep log us mu dd s = Step.cont s2 → Inv dd s2) ∧
    (∀ s2, mainStep log us mu dd s = Step.halt s2 → Inv dd s2 ∧ s2.n = 0) ∧
    mainStep log us mu dd s ≠ Step.crash := by
  by_cases hc1 : ((s.EL0 : WithTop K) ≤ s.EL1) ∧ (s.EL0 ≤ dd)
  · rcases hts : s.Ts with _ | ⟨Tt, rest⟩
    · exfalso
      obtain ⟨x, hx, hdx⟩ := hI.ts_over
      rw [hts] at hx
      rw [List.mem_singleton] at hx
      exact absurd (hx ▸ hdx) (not_lt.mpr hc1.2)
    · rw [mainStep_arrival log us mu dd s Tt rest hc1 hts]
      refine ⟨?_, ?_, ?_⟩
      · intro s2 h
        injection h with h2
        exact h2 ▸ phaseA_inv log us mu dd Hmu Hdr s Tt rest hI hc1 hts
      · intro s2 h
        simp at h
      · simp
  · by_cases hc2 : (s.EL1 < (s.EL0 : WithTop K)) ∧ (s.EL1 < (dd : WithTop K))
    · have hne : s.EL1 ≠ ⊤ := ne_top_of_lt hc2.2
      obtain ⟨tv, htv⟩ := WithTop.ne_top_iff_exists.mp hne
      rw [mainStep_departure log us mu dd s tv hc1 hc2 htv.symm]
      refine ⟨?_, ?_, ?_⟩
      · intro s2 h
        injection h with h2
        exact h2 ▸ phaseB_inv log us mu dd Hmu Hdr s tv hI hc2 htv.symm
      · intro s2 h
        simp at h
      · simp
    · have hc3 := mainStep_conds_exhaustive dd s.EL0 s.EL1 hc1 hc2
      by_cases hn : 0 < s.n
      · have hne : s.EL1 ≠ ⊤ := hI.busy hn
        obtain ⟨tv, htv⟩ := WithTop.ne_top_iff_exists.mp hne
        rw [mainStep_drain log us mu dd s tv hc1 hc2 hc3 hn htv.symm]
        refine ⟨?_, ?_, ?_⟩
        · intro s2 h
          injection h with h2
          exact h2 ▸ phaseC_inv log us mu dd Hmu Hdr s tv hI hc1 hc2 hn htv.symm
        · intro s2 h
          simp at h
        · simp
      · rw [mainStep_halt log us mu dd s hc1 hc2 hc3 hn]
        refine ⟨?_, ?_, ?_⟩
        · intro s2 h
          simp at h
        · intro s2 h
          injection h with h2
          have hn0 := hI.n_nonneg
          exact h2 ▸ ⟨hI, by omega⟩
        · simp

/-- Partial correctness of the main loop: any result reached from an
invariant state is a normal `break` from a drained invariant state. -/
theorem mainLoop_inv (log : K → K) (us : ℕ → K) (mu dd : K)
    (Hmu : 0 < mu) (Hdr : ∀ j, 0 ≤ us j ∧ 0 ≤ -log (us j)) :
    ∀ (fuel : ℕ) (s : LoopState K) (res), Inv dd s →
      mainLoop log us mu dd fuel s = some res →
      ∃ s2, res = Except.ok ⟨s2.times, s2.queues, s2.As, s2.Ds⟩ ∧
        Inv dd s2 ∧ s2.n = 0 := by
  intro fuel
  induction fuel with
  | zero =>
    intro s res hI h
    simp [mainLoop] at h
  | succ f ih =>
    intro s res hI h
    rw [mainLoop] at h
    obtain ⟨hcont, hhalt, hcrash⟩ := mainStep_inv log us mu dd Hmu Hdr s hI
    rcases hstep : mainStep log us mu dd s with s2 | s2 | _
    · rw [hstep] at h
      exact ih s2 res (hcont s2 hstep) h
    · rw [hstep] at h
      obtain ⟨hI2, hn2⟩ := hhalt s2 hstep
      injection h with h2
      exact ⟨s2, h2.symm, hI2, hn2⟩
    · exact absurd hstep hcrash

/-- More fuel never changes a completed main-loop run. -/
theorem mainLoop_mono (log : K → K) (us : ℕ → K) (mu dd : K) :
    ∀ (fuel fuel2 : ℕ) (s : LoopState K) (res),
      mainLoop log us mu dd fuel s = some res → fuel ≤ fuel2 →
      mainLoop log us mu dd fuel2 s = some res := by
  intro fuel
  induction fuel with
  | zero =>
    intro f2 s res h
    simp [mainLoop] at h
  | succ f ih =>
    intro f2 s res h hle
    obtain ⟨g, rfl⟩ : ∃ g, f2 = g + 1 := ⟨f2 - 1, by omega⟩
    rw [mainLoop] at h ⊢
    rcases hstep : mainStep log us mu dd s with s2 | s2 | _
    · rw [hstep] at h
      exact ih g s2 res h (by omega)
    · rw [hstep] at h
      exact h
    · rw [hstep] at h
      exact h

/-- The state entering the main loop satisfies the invariant. -/
theorem initState_inv (log : K → K) (us : ℕ → K) (lam t0 dd : K)
    (Hlam : 0 < lam) (Ht0 : 0 ≤ t0)
    (Hdr : ∀ j, 0 ≤ us j ∧ 0 ≤ -log (us j))
    (fuel : ℕ) (ts : List K) (j : ℕ) (T0 : K) (rest : List K)
    (hp : pregenLoop log us lam t0 dd fuel 0 0 = some (ts, j))
    (hs : List.insertionSort (· ≤ ·) ts = T0 :: rest) :
    Inv dd (initState T0 rest j) := by
  have hsorted : (T0 :: rest).Sorted (· ≤ ·) := by
    rw [← hs]
    exact List.sorted_insertionSort _ ts
  have hperm : List.Perm (List.insertionSort (· ≤ ·) ts) ts :=
    List.perm_insertionSort _ ts
  obtain ⟨L, a, hts, hL, ha⟩ := pregenLoop_shape log us lam t0 dd fuel 0 0 ts j hp
  have haMem : a ∈ T0 :: rest := by
    rw [← hs]
    exact hperm.mem_iff.mpr (by rw [hts]; simp)
  have hT0 : (0 : K) ≤ T0 := by
    apply pregenLoop_lb log us lam t0 dd Hlam Ht0 Hdr fuel 0 0 ts j hp T0
    have hmem : T0 ∈ List.insertionSort (· ≤ ·) ts := by rw [hs]; simp
    exact hperm.mem_iff.mp hmem
  refine ⟨?_, ?_, ?_, ?_, ?_, ?_, ?_, ?_, ?_, ?_, ?_, ?_, ?_, ?_, ?_⟩
  · exact le_refl 0
  · simp [initState]
  · intro _
    exact Or.inl rfl
  · intro h
    exact absurd h (lt_irrefl 0)
  · rfl
  · exact ⟨[], rfl⟩
  · exact ⟨[], rfl⟩
  · intro q hq
    rw [show (initState T0 rest j : LoopState K).queues = [0] from rfl,
      List.mem_singleton] at hq
    exact hq.ge
  · rfl
  · exact List.sorted_singleton 0
  · intro x hx
    rw [show (initState T0 rest j : LoopState K).times = [0] from rfl,
      List.mem_singleton] at hx
    exact hx.le
  · exact le_top
  · exact Or.inl hT0
  · exact hsorted
  · exact ⟨a, haMem, ha⟩

/-- Any result of `simulate` under the scenario contract and the draw
contract comes from a drained invariant state via a normal `break`. -/
theorem simulate_some (log : K → K) (us : ℕ → K) (fuel : ℕ)
    (scen : Scenario K) (res : Except Unit (SimResult K))
    (Hlam : 0 < scen.lam) (Ht0 : 0 ≤ scen.t0) (Hmu : 0 < scen.mu)
    (Hdr : ∀ j, 0 ≤ us j ∧ 0 ≤ -log (us j))
    (h : simulate log us fuel scen = some res) :
    ∃ s2, res = Except.ok ⟨s2.times, s2.queues, s2.As, s2.Ds⟩ ∧
      Inv scen.demand_duration s2 ∧ s2.n = 0 := by
  simp only [simulate] at h
  rcases hp : pregenLoop log us scen.lam scen.t0 scen.demand_duration
      fuel 0 0 with _ | ⟨ts, j⟩
  · rw [hp] at h
    exact absurd h (by simp)
  · simp only [hp] at h
    rcases hs : (List.insertionSort (· ≤ ·) ts : List K) with _ | ⟨T0, rest⟩
    · exfalso
      obtain ⟨L, a, hts, _, _⟩ :=
        pregenLoop_shape log us scen.lam scen.t0 scen.demand_duration
          fuel 0 0 ts j hp
      have hlen := (List.perm_insertionSort (· ≤ ·) ts).length_eq
      rw [hs, hts] at hlen
      simp at hlen
    · simp only [hs] at h
      exact mainLoop_inv log us scen.mu scen.demand_duration Hmu Hdr fuel
        (initState T0 rest j) res
        (initState_inv log us scen.lam scen.t0 scen.demand_duration
          Hlam Ht0 Hdr fuel ts j T0 rest hp hs) h

/-! ### Termination -/

/-- Phase C always leaves the system empty and the arrival stream intact. -/
theorem phaseC_n (log : K → K) (us : ℕ → K) (mu : K) (tv : K)
    (s : LoopState K) (hn : (0:ℤ) ≤ s.n - 1) :
    (phaseC log us mu tv s).n = 0 ∧ (phaseC log us mu tv s).Ts = s.Ts := by
  have hd := drainLoop_n log us mu (s.n - 1).toNat { s with times := s.times ++ [tv], queues := s.queues ++ [s.n - 1], Ds := s.Ds ++ [tv], t := tv, ND := s.ND + 1, n := s.n - 1 } (Int.toNat_of_nonneg hn).symm
  exact ⟨hd.1, hd.2.1⟩

/-- Every continuing step strictly decreases the loop variant
`2·|Ts| + n`. -/
theorem mainStep_measure (log : K → K) (us : ℕ → K) (mu dd : K)
    (s s2 : LoopState K) (hI : Inv dd s)
    (h : mainStep log us mu dd s = Step.cont s2) :
    2 * s2.Ts.length + s2.n.toNat < 2 * s.Ts.length + s.n.toNat := by
  have hn0 := hI.n_nonneg
  by_cases hc1 : ((s.EL0 : WithTop K) ≤ s.EL1) ∧ (s.EL0 ≤ dd)
  · rcases hts : s.Ts with _ | ⟨Tt, rest⟩
    · exfalso
      obtain ⟨x, hx, hdx⟩ := hI.ts_over
      rw [hts] at hx
      rw [List.mem_singleton] at hx
      exact absurd (hx ▸ hdx) (not_lt.mpr hc1.2)
    · rw [mainStep_arrival log us mu dd s Tt rest hc1 hts] at h
      injection h with h2
      rw [← h2]
      show 2 * rest.length + (s.n + 1).toNat <
        2 * (Tt :: rest).length + s.n.toNat
      simp only [List.length_cons]
      omega
  · by_cases hc2 : (s.EL1 < (s.EL0 : WithTop K)) ∧ (s.EL1 < (dd : WithTop K))
    · obtain ⟨tv, htv⟩ := WithTop.ne_top_iff_exists.mp (ne_top_of_lt hc2.2)
      rw [mainStep_departure log us mu dd s tv hc1 hc2 htv.symm] at h
      injection h with h2
      rw [← h2]
      have hn1 : 1 ≤ s.n := n_pos_of_departure dd s hI hc2
      show 2 * s.Ts.length + (s.n - 1).toNat < 2 * s.Ts.length + s.n.toNat
      omega
    · have hc3 := mainStep_conds_exhaustive dd s.EL0 s.EL1 hc1 hc2
      by_cases hn : 0 < s.n
      · obtain ⟨tv, htv⟩ := WithTop.ne_top_iff_exists.mp (hI.busy hn)
        rw [mainStep_drain log us mu dd s tv hc1 hc2 hc3 hn htv.symm] at h
        injection h with h2
        rw [← h2]
        obtain ⟨hzero, hTs⟩ :=
          phaseC_n log us mu tv s (show (0:ℤ) ≤ s.n - 1 by omega)
        rw [hzero, hTs]
        show 2 * s.Ts.length + (0:ℤ).toNat < 2 * s.Ts.length + s.n.toNat
        omega
      · rw [mainStep_halt log us mu dd s hc1 hc2 hc3 hn] at h
        simp at h

/-- Fuel `variant + 1` always suffices for the main loop to produce a
result from an invariant state. -/
theorem mainLoop_term (log : K → K) (us : ℕ → K) (mu dd : K)
    (Hmu : 0 < mu) (Hdr : ∀ j, 0 ≤ us j ∧ 0 ≤ -log (us j)) :
    ∀ (m : ℕ) (s : LoopState K), Inv dd s →
      2 * s.Ts.length + s.n.toNat ≤ m →
      ∃ res, mainLoop log us mu dd (m + 1) s = some res := by
  intro m
  induction m with
  | zero =>
    intro s hI hm
    rcases hstep : mainStep log us mu dd s with s2 | s2 | _
    · exfalso
      have := mainStep_measure log us mu dd s s2 hI hstep
      omega
    · exact ⟨_, by rw [mainLoop, hstep]⟩
    · exact ⟨_, by rw [mainLoop, hstep]⟩
  | succ m ih =>
    intro s hI hm
    rcases hstep : mainStep log us mu dd s with s2 | s2 | _
    · have hd := mainStep_measure log us mu dd s s2 hI hstep
      have hI2 := (mainStep_inv log us mu dd Hmu Hdr s hI).1 s2 hstep
      obtain ⟨res, hres⟩ := ih s2 hI2 (by omega)
      refine ⟨res, ?_⟩
      rw [mainLoop, hstep]
      exact hres
    · exact ⟨_, by rw [mainLoop, hstep]⟩
    · exact ⟨_, by rw [mainLoop, hstep]⟩

/-- When every exponential inter-arrival increment is at least `ε`, the
pre-generation loop breaks within `demand_duration / ε + O(1)` iterations. -/
theorem pregenLoop_term (log : K → K) (us : ℕ → K) (lam t0 dd ε : K)
    (Ht0 : 0 ≤ t0) (Hdr : ∀ j, 0 ≤ us j ∧ 0 ≤ -log (us j))
    (Hinc : ∀ j, ε ≤ -log (us j) / lam) :
    ∀ (f : ℕ) (gtime : K) (i : ℕ), dd < gtime + (f + 1 : ℕ) * ε →
      ∃ r, pregenLoop log us lam t0 dd (f + 1) gtime i = some r := by
  intro f
  induction f with
  | zero =>
    intro gtime i h
    rw [pregenLoop_succ]
    have hb : dd < gtime + -log (us i) / lam + t0 * us (i + 1) := by
      have h1 := Hinc i
      have h2 := mul_nonneg Ht0 (Hdr (i + 1)).1
      push_cast at h
      linarith
    rw [if_pos hb]
    exact ⟨_, rfl⟩
  | succ f ih =>
    intro gtime i h
    rw [pregenLoop_succ]
    by_cases hb : dd < gtime + -log (us i) / lam + t0 * us (i + 1)
    · rw [if_pos hb]
      exact ⟨_, rfl⟩
    · rw [if_neg hb]
      obtain ⟨r, hr⟩ := ih (gtime + -log (us i) / lam) (i + 1 + 1) (by
        have h1 := Hinc i
        push_cast at h ⊢
        linarith)
      rw [hr]
      exact ⟨_, rfl⟩

/-- Termination of the whole run: under the scenario and draw contracts,
and with the exponential inter-arrival increments bounded below by a fixed
`ε > 0`, some fuel lets `simulate` complete normally. -/
theorem simulate_term [Archimedean K] (log : K → K) (us : ℕ → K)
    (scen : Scenario K) (ε : K)
    (Hlam : 0 < scen.lam) (Ht0 : 0 ≤ scen.t0) (Hmu : 0 < scen.mu)
    (Hdr : ∀ j, 0 ≤ us j ∧ 0 ≤ -log (us j))
    (Hε : 0 < ε) (Hinc : ∀ j, ε ≤ -log (us j) / scen.lam) :
    SimTerminates log us scen := by
  obtain ⟨f, hf⟩ := exists_nat_gt (scen.demand_duration / ε)
  have hfd : scen.demand_duration < 0 + ((f + 1 : ℕ) : K) * ε := by
    have h1 : scen.demand_duration < (f : K) * ε := by
      rwa [div_lt_iff₀ Hε] at hf
    have h2 : (f : K) * ε ≤ ((f : K) + 1) * ε := by nlinarith
    push_cast
    linarith
  obtain ⟨⟨ts, j⟩, hp⟩ := pregenLoop_term log us scen.lam scen.t0
    scen.demand_duration ε Ht0 Hdr Hinc f 0 0 hfd
  rcases hs : (List.insertionSort (· ≤ ·) ts) with _ | ⟨T0, rest⟩
  · exfalso
    obtain ⟨L, a, hts2, _, _⟩ := pregenLoop_shape log us scen.lam scen.t0
      scen.demand_duration (f + 1) 0 0 ts j hp
    have hlen := (List.perm_insertionSort (· ≤ ·) ts).length_eq
    rw [hs, hts2] at hlen
    simp at hlen
  · have hI := initState_inv log us scen.lam scen.t0 scen.demand_duration
      Hlam Ht0 Hdr (f + 1) ts j T0 rest hp hs
    obtain ⟨res, hres⟩ := mainLoop_term log us scen.mu scen.demand_duration
      Hmu Hdr
      (2 * (initState T0 rest j : LoopState K).Ts.length +
        (initState T0 rest j : LoopState K).n.toNat)
      (initState T0 rest j) hI le_rfl
    set M := 2 * (initState T0 rest j : LoopState K).Ts.length +
      (initState T0 rest j : LoopState K).n.toNat with hM
    have hp2 := pregenLoop_mono log us scen.lam scen.t0 scen.demand_duration
      (f + 1) (f + 1 + (M + 1)) 0 0 (ts, j) hp (by omega)
    have hres2 := mainLoop_mono log us scen.mu scen.demand_duration
      (M + 1) (f + 1 + (M + 1)) (initState T0 rest j) res hres (by omega)
    have hsim : simulate log us (f + 1 + (M + 1)) scen = some res := by
      simp only [simulate]
      simp only [hp2]
      simp only [hs]
      exact hres2
    obtain ⟨s2, hok, _, _⟩ := simulate_some log us (f + 1 + (M + 1)) scen res
      Hlam Ht0 Hmu Hdr hsim
    exact ⟨f + 1 + (M + 1), ⟨s2.times, s2.queues, s2.As, s2.Ds⟩,
      by rw [hsim, hok]⟩

theorem qUs_cases : ∀ j, qUs j = 1/2 ∨ qUs j = 3/4 := by
  intro j
  rcases j with _ | _ | _ | _ | _ | j
  · exact Or.inl rfl
  · exact Or.inl rfl
  · exact Or.inr rfl
  · exact Or.inl rfl
  · exact Or.inr rfl
  · exact Or.inl rfl

theorem qUs_bounds : ∀ j, 0 ≤ qUs j ∧ 0 ≤ -qLog (qUs j) := by
  intro j
  rcases qUs_cases j with h | h <;>
    (rw [h]; norm_num [qLog])

theorem qUs_half : ∀ j, (1/2 : ℚ) ≤ -qLog (qUs j) / qScen.lam := by
  intro j
  rcases qUs_cases j with h | h <;>
    (rw [h]; norm_num [qLog, qScen])

/-- The complete `qScen` run: two pre-generated instants `1/2` and `5/4`
(the latter the retained overshoot), one arrival, one Phase C departure. -/
theorem qRun : simulate qLog qUs 6 qScen = some (Except.ok qRes) := by
  norm_num [simulate, qScen, qRes, pregenLoop, Generation.generate,
    Arrival.travel, exponential_rng, Departure.depart, qLog, qUs,
    List.insertionSort, List.orderedInsert, mainLoop, mainStep, initState,
    phaseA, phaseB, phaseC, drainLoop, drainBody]

/-- A run whose very first generated arrival instant exceeds the horizon
terminates at once with the empty trajectory: the pre-generation loop
breaks after the single (overshooting) append, and the main loop's first
re-evaluation takes the Phase C branch with `n = 0` and breaks. -/
theorem simulate_first_overshoot (log : K → K) (us : ℕ → K)
    (dd t0 lam mu : K) (fuel : ℕ) (hf : 1 ≤ fuel)
    (h : dd < 0 + -log (us 0) / lam + t0 * us 1) :
    simulate log us fuel (Scenario.mk dd t0 lam mu) =
      some (Except.ok ⟨[0], [0], [], []⟩) := by
  obtain ⟨f, rfl⟩ : ∃ f, fuel = f + 1 := ⟨fuel - 1, by omega⟩
  have hp : pregenLoop log us lam t0 dd (f + 1) 0 0 =
      some ([0 + -log (us 0) / lam + t0 * us 1], 0 + 1 + 1) := by
    rw [pregenLoop_succ, if_pos h]
  have hs : List.insertionSort (· ≤ ·)
      [0 + -log (us 0) / lam + t0 * us 1] =
      [0 + -log (us 0) / lam + t0 * us 1] := rfl
  simp only [simulate]
  simp only [hp]
  simp only [hs]
  have hstep : mainStep log us mu dd
      (initState (0 + -log (us 0) / lam + t0 * us 1) [] (0 + 1 + 1)) =
      Step.halt (initState (0 + -log (us 0) / lam + t0 * us 1) []
        (0 + 1 + 1)) := by
    apply mainStep_halt
    · rintro ⟨_, h2⟩
      exact absurd h (not_lt.mpr h2)
    · rintro ⟨h2, _⟩
      exact not_top_lt h2
    · exact Or.inl h
    · show ¬ (0 : ℤ) < 0
      omega
  rw [mainLoop, hstep]
  rfl

theorem uC3_log : ∀ i, Real.log (uC3 i) = -(1/2) := fun _ => Real.log_exp _

/-- With `lam = -1` and the real `np.log`, every inter-arrival increment is
`-log(u)/(-1) = ln(u) < 0`, so the generation clock never rises and the
pre-generation loop never breaks against a positive horizon. -/
theorem c3_pregen : ∀ (fuel : ℕ) (g : ℝ) (i : ℕ), g ≤ 0 →
    pregenLoop Real.log uC3 (-1) 0 1 fuel g i = none := by
  intro fuel
  induction fuel with
  | zero => intro g i _; rfl
  | succ f ih =>
    intro g i hg
    rw [pregenLoop_succ]
    have hlog : -Real.log (uC3 i) / (-1 : ℝ) = -(1/2) := by
      rw [uC3_log i]
      norm_num
    rw [hlog]
    have hta : ¬ ((1:ℝ) < g + -(1/2) + 0 * uC3 (i + 1)) := by
      push_neg
      rw [zero_mul, add_zero]
      linarith
    rw [if_neg hta]
    rw [ih (g + -(1/2)) (i + 1 + 1) (by linarith)]

/-- `simulate` with `lam = -1` under the real `np.log` never returns: the
run hangs inside arrival pre-generation, for every fuel bound. -/
theorem c3_diverge : ∀ fuel,
    simulate Real.log uC3 fuel (Scenario.mk (1:ℝ) 0 (-1) 1) = none := by
  intro fuel
  have h0 : pregenLoop Real.log uC3 (-1) 0 1 fuel 0 0 = none :=
    c3_pregen fuel 0 0 le_rfl
  simp only [simulate]
  rw [h0]

/-- The pre-generation run for the C1 counterexample: a single instant `2`
exceeding the horizon `1` is generated, appended, and returned. -/
theorem cPre1 : pregenLoop qLog cUs1 (1/4 : ℚ) 0 1 3 0 0 = some ([2], 2) := by
  norm_num [pregenLoop, Generation.generate, Arrival.travel, exponential_rng,
    qLog, cUs1]

theorem cUs9_pos : ∀ j, 0 < cUs9 j := by
  intro j
  rw [cUs9]
  by_cases h : j % 2 = 0
  · rw [if_pos h]
    positivity
  · rw [if_neg h]
    norm_num

/-- With the geometric stream the generation clock after `k` iterations is
`1/2 - (1/2)^(k+1) < 1`, so the pre-generation loop never breaks. -/
theorem c9_pregen : ∀ (fuel k : ℕ),
    pregenLoop qLog cUs9 1 0 1 fuel ((1:ℚ)/2 - (1/2)^(k+1)) (2*k) = none := by
  intro fuel
  induction fuel with
  | zero => intro k; rfl
  | succ f ih =>
    intro k
    rw [pregenLoop_succ]
    have hus : cUs9 (2*k) = (1/2 : ℚ)^(k+2) := by
      simp [cUs9, Nat.mul_mod_right, Nat.mul_div_cancel_left]
    have harg2 : ((1:ℚ)/2 - (1/2)^(k+1)) + -qLog (cUs9 (2*k)) / 1 =
        1/2 - (1/2)^(k+1+1) := by
      simp only [qLog, neg_neg, hus, div_one]
      rw [pow_succ ((1:ℚ)/2) (k+1)]
      ring
    rw [harg2]
    have hlt : ¬ ((1:ℚ) < 1/2 - (1/2)^(k+1+1) + 0 * cUs9 (2*k+1)) := by
      have hp : (0:ℚ) < (1/2)^(k+1+1) := by positivity
      push_neg
      linarith
    rw [if_neg hlt]
    have hidx : 2*k + 1 + 1 = 2*(k+1) := by ring
    rw [hidx, ih (k+1)]

/-- Divergence of `simulate` on the geometric stream: no fuel suffices. -/
theorem c9_diverge : ∀ fuel, simulate qLog cUs9 fuel c9Scen = none := by
  intro fuel
  have h0 : pregenLoop qLog cUs9 1 0 1 fuel 0 0 = none := by
    have h := c9_pregen fuel 0
    norm_num at h
    exact h
  simp only [simulate, c9Scen]
  rw [h0]

/-! ### Claims -/

/-- C1: the claim as stated is false: the working list is not purged of the
overshooting instant.  On a run with `lam = 1/4`, horizon `1` and constant
uniform draws `1/2`, pre-generation returns the list `[2]`, whose sole
element — consumed by the main loop as the first NA-slot value — exceeds the
horizon. -/
theorem C1_counterexample :
    pregenLoop qLog cUs1 (1/4 : ℚ) 0 1 3 0 0 = some ([2], 2) ∧
    (2 : ℚ) ∈ [(2 : ℚ)] ∧ ¬ ((2 : ℚ) ≤ 1) ∧
    List.insertionSort (· ≤ ·) [(2 : ℚ)] = [(2 : ℚ)] :=
  ⟨cPre1, by simp, by norm_num, by simp⟩

/-- C1 (amended): the completed pre-generation list contains exactly one
instant exceeding `demand_duration` — the final overshooting draw, which is
appended rather than discarded — and every other element is at most
`demand_duration`. -/
theorem C1_amended (log : K → K) (us : ℕ → K) (lam t0 dd : K) (fuel : ℕ)
    (ts : List K) (j : ℕ)
    (h : pregenLoop log us lam t0 dd fuel 0 0 = some (ts, j)) :
    ∃ a, a ∈ ts ∧ dd < a ∧ ∀ x ∈ ts, x ≠ a → x ≤ dd := by
  obtain ⟨L, a, rfl, hL, ha⟩ :=
    pregenLoop_shape log us lam t0 dd fuel 0 0 ts j h
  refine ⟨a, by simp, ha, ?_⟩
  intro x hx hne
  rcases List.mem_append.mp hx with h2 | h2
  · exact hL x h2
  · rw [List.mem_singleton] at h2
    exact absurd h2 hne

theorem C1_amended_witness :
    pregenLoop qLog cUs1 (1/4 : ℚ) 0 1 3 0 0 = some ([2], 2) ∧
    (∃ a, a ∈ [(2 : ℚ)] ∧ (1 : ℚ) < a ∧ ∀ x ∈ [(2 : ℚ)], x ≠ a → x ≤ 1) :=
  ⟨cPre1, C1_amended qLog cUs1 (1/4) 0 1 3 [2] 2 cPre1⟩

/-- C2: the claim as stated is false: after the Phase C drain of the `qScen`
run, control returns to the top of the loop in state `w2` with `n = 0` while
the ND-slot holds the finite instant `5/4`, not `+∞`. -/
theorem C2_counterexample :
    pregenLoop qLog qUs 1 0 1 6 0 0 = some ([1/2, 5/4], 4) ∧
    List.insertionSort (· ≤ ·) [(1/2 : ℚ), 5/4] = [1/2, 5/4] ∧
    stepN qLog qUs 1 1 2 (Step.cont (initState (1/2 : ℚ) [5/4] 4)) =
      Step.cont w2 ∧
    w2.n = 0 ∧ w2.EL1 ≠ ⊤ := by
  refine ⟨?_, ?_, ?_, rfl, by simp [w2]⟩
  · norm_num [pregenLoop, Generation.generate, Arrival.travel,
      exponential_rng, qLog, qUs]
  · norm_num [List.insertionSort, List.orderedInsert]
  · norm_num [stepN, mainStep, initState, phaseA, phaseB, phaseC, drainLoop,
      drainBody, Departure.depart, exponential_rng, qLog, qUs, w2]

/-- C2 (amended): in every invariant state of the loop with `n = 0`, either
the ND-slot is `+∞`, or the loop condition re-evaluation immediately takes
the terminating branch (the `break`), so no event is ever processed from a
state violating the idle invariant. -/
theorem C2_amended (log : K → K) (us : ℕ → K) (mu dd : K)
    (s : LoopState K) (hI : Inv dd s) (hn : s.n = 0) :
    s.EL1 = ⊤ ∨ mainStep log us mu dd s = Step.halt s := by
  rcases hI.idle hn with h | ⟨hE0, hEL1⟩
  · exact Or.inl h
  · right
    have hc1 : ¬ (((s.EL0 : WithTop K) ≤ s.EL1) ∧ (s.EL0 ≤ dd)) := by
      rintro ⟨_, h2⟩
      exact absurd hE0 (not_lt.mpr h2)
    have hc2 : ¬ ((s.EL1 < (s.EL0 : WithTop K)) ∧
        (s.EL1 < (dd : WithTop K))) := by
      rintro ⟨_, h2⟩
      exact hEL1 h2
    exact mainStep_halt log us mu dd s hc1 hc2 (Or.inl hE0) (by omega)

theorem C2_amended_witness :
    w2.n = 0 ∧ (w2.EL1 = ⊤ ∨ mainStep qLog qUs 1 1 w2 = Step.halt w2) := by
  refine ⟨rfl, C2_amended qLog qUs 1 1 w2 ?_ rfl⟩
  refine ⟨?_, ?_, ?_, ?_, ?_, ?_, ?_, ?_, ?_, ?_, ?_, ?_, ?_, ?_, ?_⟩
  · exact le_refl 0
  · decide
  · intro _
    refine Or.inr ⟨by norm_num [w2], ?_⟩
    show ¬ ((5/4 : ℚ) : WithTop ℚ) < ((1 : ℚ) : WithTop ℚ)
    rw [WithTop.coe_lt_coe]
    norm_num
  · intro _
    simp [w2]
  · rfl
  · exact ⟨[1/2, 5/4], rfl⟩
  · exact ⟨[1, 0], rfl⟩
  · decide
  · decide
  · show ([0, 1/2, 5/4] : List ℚ).Sorted (· ≤ ·)
    norm_num [List.sorted_cons]
  · intro x hx
    have hx2 : x ∈ ([0, 1/2, 5/4] : List ℚ) := hx
    show x ≤ 5/4
    rcases hx2 with _ | ⟨_, _ | ⟨_, h⟩⟩
    · norm_num
    · norm_num
    · rcases List.mem_singleton.mp (by assumption) with rfl
      norm_num
  · exact le_refl _
  · exact Or.inl (le_refl _)
  · exact List.sorted_singleton _
  · exact ⟨5/4, by simp [w2], by norm_num⟩

/-- C3: the claim as stated is false, under the real `np.log` itself and a
genuine uniform draw `e^(-1/2) ∈ (0,1)`.  `Scenario` construction never
fails, and no error is raised at the start of `simulate`: with the invalid
horizon `demand_duration = -1 ≤ 0` the run proceeds and returns a normal
result (no error); and with the invalid rate `lam = -1` the run does not
fail fast either — it hangs forever inside pre-generation (no fuel bound
returns). -/
theorem C3_counterexample :
    ((-1 : ℝ) ≤ 0) ∧ (0 < uC3 0 ∧ uC3 0 < 1) ∧
    simulate Real.log uC3 1 (Scenario.mk (-1 : ℝ) 0 1 1) =
      some (Except.ok ⟨[0], [0], [], []⟩) ∧
    simulate Real.log uC3 1 (Scenario.mk (-1 : ℝ) 0 1 1) ≠
      some (Except.error ()) ∧
    (∀ fuel, simulate Real.log uC3 fuel (Scenario.mk (1 : ℝ) 0 (-1) 1) =
      none) := by
  have hrun : simulate Real.log uC3 1 (Scenario.mk (-1 : ℝ) 0 1 1) =
      some (Except.ok ⟨[0], [0], [], []⟩) := by
    apply simulate_first_overshoot Real.log uC3 (-1) 0 1 1 1 le_rfl
    rw [uC3_log 0]
    norm_num
  refine ⟨by norm_num, ⟨Real.exp_pos _, ?_⟩, hrun, ?_, c3_diverge⟩
  · show Real.exp (-(1/2)) < 1
    rw [Real.exp_lt_one_iff]
    norm_num
  · rw [hrun]
    simp

/-- C3 (amended): no fail-fast validation exists: `Scenario` stores any
parameter values and `simulate` begins processing without checks.  In
particular, any scenario with a non-positive (invalid) `demand_duration`
whose first inter-arrival increment is positive is accepted silently and
the run completes normally with the empty trajectory instead of raising. -/
theorem C3_amended (log : K → K) (us : ℕ → K) (dd t0 lam mu : K)
    (fuel : ℕ) (hf : 1 ≤ fuel) (hdd : dd ≤ 0)
    (hinc : 0 < -log (us 0) / lam) (htt : 0 ≤ t0 * us 1) :
    simulate log us fuel (Scenario.mk dd t0 lam mu) =
      some (Except.ok ⟨[0], [0], [], []⟩) :=
  simulate_first_overshoot log us dd t0 lam mu fuel hf (by linarith)

theorem C3_amended_witness :
    1 ≤ 1 ∧ ((-1 : ℝ) ≤ 0) ∧ (0 < -Real.log (uC3 0) / 1) ∧
    ((0 : ℝ) ≤ 0 * uC3 1) ∧
    simulate Real.log uC3 1 (Scenario.mk (-1 : ℝ) 0 1 1) =
      some (Except.ok ⟨[0], [0], [], []⟩) :=
  ⟨le_rfl, by norm_num, by rw [uC3_log 0]; norm_num,
    by rw [zero_mul],
    C3_amended Real.log uC3 (-1) 0 1 1 1 le_rfl (by norm_num)
      (by rw [uC3_log 0]; norm_num) (by rw [zero_mul])⟩

/-- C4: the claim as stated is false: `exponential_rng` performs no
boundary rejection — the uniform draw of exactly `0` (possible, since
`np.random.rand` samples `[0,1)`) is consumed and fed directly to the
logarithm, with the cursor advancing by exactly one (no retry). -/
theorem C4_counterexample :
    uZero 0 = 0 ∧
    exponential_rng Real.log uZero 1 0 = (-Real.log 0 / 1, 0 + 1) :=
  ⟨rfl, rfl⟩

/-- C4 (amended): `exponential_rng` applies `-log(u)/lam` to the raw draw
with no guard: whenever the draw at the cursor is `0`, the value `0` reaches
the logarithm and exactly one draw is consumed. -/
theorem C4_amended (log : K → K) (us : ℕ → K) (lam : K) (i : ℕ)
    (h : us i = 0) :
    exponential_rng log us lam i = (-log 0 / lam, i + 1) := by
  rw [exponential_rng, h]

theorem C4_amended_witness :
    uZeroQ 0 = 0 ∧
    exponential_rng qLog uZeroQ 2 0 = (-qLog 0 / 2, 0 + 1) :=
  ⟨rfl, C4_amended qLog uZeroQ 2 0 rfl⟩

/-- C5: tie-break: when the NA-slot and ND-slot are equal and the NA-slot is
within the horizon, the engine takes the arrival branch: the queue length is
incremented and the instant is recorded as an arrival, not a departure. -/
theorem C5_tie_break (log : K → K) (us : ℕ → K) (mu dd : K)
    (s : LoopState K) (Tt : K) (rest : List K)
    (h1 : s.EL1 = (s.EL0 : WithTop K)) (h2 : s.EL0 ≤ dd)
    (hts : s.Ts = Tt :: rest) :
    Step.queueLen (mainStep log us mu dd s) = some (s.n + 1) ∧
    Step.arrivalsRec (mainStep log us mu dd s) = some (s.As ++ [s.EL0]) ∧
    Step.departuresRec (mainStep log us mu dd s) = some s.Ds := by
  have hc : ((s.EL0 : WithTop K) ≤ s.EL1) ∧ (s.EL0 ≤ dd) :=
    ⟨by rw [h1], h2⟩
  rw [mainStep_arrival log us mu dd s Tt rest hc hts]
  exact ⟨rfl, rfl, rfl⟩

theorem C5_tie_break_witness :
    sTie.EL1 = (sTie.EL0 : WithTop ℚ) ∧ sTie.EL0 ≤ 1 ∧ sTie.Ts = [3/4] ∧
    (Step.queueLen (mainStep qLog qUs 1 1 sTie) = some (sTie.n + 1) ∧
      Step.arrivalsRec (mainStep qLog qUs 1 1 sTie) =
        some (sTie.As ++ [sTie.EL0]) ∧
      Step.departuresRec (mainStep qLog qUs 1 1 sTie) = some sTie.Ds) :=
  ⟨rfl, by norm_num [sTie], rfl,
    C5_tie_break qLog qUs 1 1 sTie (3/4) [] rfl (by norm_num [sTie]) rfl⟩

/-- C6: full drain: under the scenario contract (positive rates,
non-negative free-flow time) and the draw contract, every terminating run
ends with queue length `0` as the final recorded value and with equally many
recorded arrivals and departures. -/
theorem C6_full_drain (log : K → K) (us : ℕ → K) (fuel : ℕ)
    (scen : Scenario K) (r : SimResult K)
    (Hlam : 0 < scen.lam) (Ht0 : 0 ≤ scen.t0) (Hmu : 0 < scen.mu)
    (Hdr : ∀ j, 0 ≤ us j ∧ 0 ≤ -log (us j))
    (h : simulate log us fuel scen = some (Except.ok r)) :
    r.queues.getLast? = some 0 ∧ r.As.length = r.Ds.length := by
  obtain ⟨s2, hok, hI, hn0⟩ :=
    simulate_some log us fuel scen (Except.ok r) Hlam Ht0 Hmu Hdr h
  injection hok with h2
  subst h2
  constructor
  · show s2.queues.getLast? = some 0
    rw [hI.queues_last, hn0]
  · show s2.As.length = s2.Ds.length
    have hc := hI.n_count
    rw [hn0] at hc
    omega

theorem C6_full_drain_witness :
    simulate qLog qUs 6 qScen = some (Except.ok qRes) ∧
    (qRes.queues.getLast? = some 0 ∧ qRes.As.length = qRes.Ds.length) :=
  ⟨qRun, C6_full_drain qLog qUs 6 qScen qRes (by norm_num [qScen])
    (by norm_num [qScen]) (by norm_num [qScen]) qUs_bounds qRun⟩

/-- C7: trajectory shape: under the scenario and draw contracts, every
terminating run returns `times` and `queues` of equal length, `times`
non-decreasing and starting at `0`, and `queues` non-negative and starting
at `0`. -/
theorem C7_trajectory_shape (log : K → K) (us : ℕ → K) (fuel : ℕ)
    (scen : Scenario K) (r : SimResult K)
    (Hlam : 0 < scen.lam) (Ht0 : 0 ≤ scen.t0) (Hmu : 0 < scen.mu)
    (Hdr : ∀ j, 0 ≤ us j ∧ 0 ≤ -log (us j))
    (h : simulate log us fuel scen = some (Except.ok r)) :
    r.times.length = r.queues.length ∧ r.times.Sorted (· ≤ ·) ∧
    r.times.head? = some 0 ∧ r.queues.head? = some 0 ∧
    ∀ q ∈ r.queues, 0 ≤ q := by
  obtain ⟨s2, hok, hI, _⟩ :=
    simulate_some log us fuel scen (Except.ok r) Hlam Ht0 Hmu Hdr h
  injection hok with h2
  subst h2
  refine ⟨hI.len_eq, hI.times_sorted, ?_, ?_, hI.queues_nonneg⟩
  · obtain ⟨l, hl⟩ := hI.times_shape
    show s2.times.head? = some 0
    rw [hl]
    rfl
  · obtain ⟨l, hl⟩ := hI.queues_shape
    show s2.queues.head? = some 0
    rw [hl]
    rfl

theorem C7_trajectory_shape_witness :
    simulate qLog qUs 6 qScen = some (Except.ok qRes) ∧
    (qRes.times.length = qRes.queues.length ∧
      qRes.times.Sorted (· ≤ ·) ∧ qRes.times.head? = some 0 ∧
      qRes.queues.head? = some 0 ∧ ∀ q ∈ qRes.queues, 0 ≤ q) :=
  ⟨qRun, C7_trajectory_shape qLog qUs 6 qScen qRes (by norm_num [qScen])
    (by norm_num [qScen]) (by norm_num [qScen]) qUs_bounds qRun⟩

/-- C8: zero-horizon edge case: if the very first generated arrival instant
exceeds `demand_duration`, `simulate` terminates at once with `times = [0]`,
`queues = [0]`, and empty arrival and departure records. -/
theorem C8_zero_horizon (log : K → K) (us : ℕ → K) (dd t0 lam mu : K)
    (fuel : ℕ) (hf : 1 ≤ fuel)
    (h : dd < 0 + -log (us 0) / lam + t0 * us 1) :
    simulate log us fuel (Scenario.mk dd t0 lam mu) =
      some (Except.ok ⟨[0], [0], [], []⟩) :=
  simulate_first_overshoot log us dd t0 lam mu fuel hf h

theorem C8_zero_horizon_witness :
    1 ≤ 3 ∧ ((1/4 : ℚ) < 0 + -qLog (cUs1 0) / 1 + 0 * cUs1 1) ∧
    simulate qLog cUs1 3 (Scenario.mk (1/4 : ℚ) 0 1 1) =
      some (Except.ok ⟨[0], [0], [], []⟩) :=
  ⟨by norm_num, by norm_num [qLog, cUs1],
    C8_zero_horizon qLog cUs1 (1/4) 0 1 1 3 (by norm_num)
      (by norm_num [qLog, cUs1])⟩

/-- C9: the claim as stated is false: strict positivity of every draw does
not make `simulate` terminate.  With the geometric stream `cUs9` — all
uniform draws in `(0,1)`, all exponential increments strictly positive —
the cumulative generation clock stays below `1/2 < demand_duration`
forever, the pre-generation loop never breaks, and no fuel completes the
run. -/
theorem C9_counterexample :
    (∀ j, 0 < cUs9 j) ∧ (∀ j, 0 < -qLog (cUs9 j) / c9Scen.lam) ∧
    0 < c9Scen.lam ∧ 0 < c9Scen.mu ∧ 0 < c9Scen.demand_duration ∧
    0 ≤ c9Scen.t0 ∧ ¬ SimTerminates qLog cUs9 c9Scen := by
  refine ⟨cUs9_pos, ?_, by norm_num [c9Scen], by norm_num [c9Scen],
    by norm_num [c9Scen], by norm_num [c9Scen], ?_⟩
  · intro j
    have hp := cUs9_pos j
    show (0:ℚ) < -qLog (cUs9 j) / c9Scen.lam
    simp only [qLog, neg_neg, c9Scen]
    norm_num
    exact hp
  · rintro ⟨fuel, r, hr⟩
    rw [c9_diverge fuel] at hr
    exact Option.noConfusion hr

/-- C9 (amended): termination holds when, in addition to the scenario and
draw contracts, the exponential inter-arrival increments are bounded below
by some fixed `ε > 0` (so the generation clock provably passes the
horizon): then the pre-generation loop breaks and the main loop — whose
variant `2·|Ts| + n` strictly decreases at every continuing step —
completes, including the Phase C drain. -/
theorem C9_amended [Archimedean K] (log : K → K) (us : ℕ → K)
    (scen : Scenario K) (ε : K)
    (Hlam : 0 < scen.lam) (Ht0 : 0 ≤ scen.t0) (Hmu : 0 < scen.mu)
    (Hdr : ∀ j, 0 ≤ us j ∧ 0 ≤ -log (us j))
    (Hε : 0 < ε) (Hinc : ∀ j, ε ≤ -log (us j) / scen.lam) :
    SimTerminates log us scen :=
  simulate_term log us scen ε Hlam Ht0 Hmu Hdr Hε Hinc

theorem C9_amended_witness :
    (0 : ℚ) < qScen.lam ∧ SimTerminates qLog qUs qScen :=
  ⟨by norm_num [qScen],
    C9_amended qLog qUs qScen (1/2) (by norm_num [qScen])
      (by norm_num [qScen]) (by norm_num [qScen]) qUs_bounds
      (by norm_num) qUs_half⟩

/-- C10: the arrival-iterator accesses never run past the end of the list:
under the scenario and draw contracts every completed run of `simulate`
ends in the normal `break`, never in an escaped `StopIteration` — the
pre-generation loop always appends at least one instant before breaking,
and the retained overshooting instant blocks the arrival guard before the
iterator can be pulled when exhausted. -/
theorem C10_no_stop_iteration (log : K → K) (us : ℕ → K) (fuel : ℕ)
    (scen : Scenario K) (res : Except Unit (SimResult K))
    (Hlam : 0 < scen.lam) (Ht0 : 0 ≤ scen.t0) (Hmu : 0 < scen.mu)
    (Hdr : ∀ j, 0 ≤ us j ∧ 0 ≤ -log (us j))
    (h : simulate log us fuel scen = some res) :
    ∃ r, res = Except.ok r := by
  obtain ⟨s2, hok, _, _⟩ :=
    simulate_some log us fuel scen res Hlam Ht0 Hmu Hdr h
  exact ⟨_, hok⟩

theorem C10_no_stop_iteration_witness :
    simulate qLog qUs 6 qScen = some (Except.ok qRes) ∧
    (∃ r, (Except.ok qRes : Except Unit (SimResult ℚ)) = Except.ok r) :=
  ⟨qRun, C10_no_stop_iteration qLog qUs 6 qScen (Except.ok qRes)
    (by norm_num [qScen]) (by norm_num [qScen]) (by norm_num [qScen])
    qUs_bounds qRun⟩

end OptSim
